import Mathlib

/-!
Verification development for the chemquiz repository.

The Rust core consists of three components: the quiz generation engine
(`src/quiz.rs`), the catalog indexing engine (`src/catalog.rs`), and the
manifest flattening engine (`src/catalog_manifest.rs`).  This file gives a
shallow embedding of those components and proves the specified properties.

The random source (`rand::Rng`) is modelled as an infinite stream of natural
numbers together with a cursor; `rand`'s slice `shuffle` is modelled by the
Fisher-Yates swap loop it implements, drawing successive values from the
stream.  All theorems quantify over every possible stream, so nothing
depends on a particular distribution of draws.
-/

/-- Functional group metadata (`FunctionalGroup` in `compound.rs`). -/
structure FunctionalGroup where
  name_en : String
  name_ja : String
  pattern : String
deriving DecidableEq

/-- A chemical compound (`Compound` in `compound.rs`). -/
structure Compound where
  iupac_name : String
  common_name : Option String
  local_name : Option String
  skeletal_formula : String
  molecular_formula : String
  series_general_formula : Option String
  functional_groups : List FunctionalGroup
  notes : Option String
  smiles : Option String
deriving DecidableEq

/-- Rust `Compound::english_label`: IUPAC name, with the common name appended in
parentheses when present and distinct. -/
def Compound.english_label (c : Compound) : String :=
  match c.common_name with
  | some common =>
    if common ≠ c.iupac_name then c.iupac_name ++ " (" ++ common ++ ")"
    else c.iupac_name
  | none => c.iupac_name

/-- Rust `Compound::display_name`: english label, then `/ local_name` when present,
joined by spaces. -/
def Compound.display_name (c : Compound) : String :=
  let parts := [c.english_label] ++
    (match c.local_name with
     | some loc => ["/ " ++ loc]
     | none => [])
  String.intercalate " " parts

/-- Rust `Compound::display_structure`: `"{skeletal_formula} ({molecular_formula})"`. -/
def Compound.display_structure (c : Compound) : String :=
  c.skeletal_formula ++ " (" ++ c.molecular_formula ++ ")"

/-- Rust `QuizMode` in `quiz.rs`. -/
inductive QuizMode where
  | nameToStructure
  | structureToName
deriving DecidableEq

/-- Rust `QuizItem` in `quiz.rs`. -/
structure QuizItem where
  mode : QuizMode
  prompt : String
  options : List String
  correct_index : Nat
deriving DecidableEq

/-- Rust `QuizError` in `quiz.rs`. -/
inductive QuizError where
  | notEnoughCompounds (required available : Nat)
  | insufficientUniqueOptions (required unique : Nat)
  | optionCountTooSmall
deriving DecidableEq

/-- Outcome of a call to `generate_quiz`: a successful item, a returned
error, or a Rust panic (out-of-bounds index / `expect` failure). -/
inductive QuizOutcome where
  | ok (item : QuizItem)
  | err (e : QuizError)
  | crash
deriving DecidableEq

/-- The injected random source: an infinite stream of draws plus a cursor.
Models any `R: Rng + ?Sized` passed to `generate_quiz`. -/
structure Rng where
  stream : Nat → Nat
  pos : Nat

/-- One bounded draw (`rng.gen_range(0..=i)` has `bound = i + 1`). -/
def Rng.genBelow (r : Rng) (bound : Nat) : Nat × Rng :=
  (r.stream r.pos % bound, ⟨r.stream, r.pos + 1⟩)

/-- Rust slice `swap i j`, total: out-of-range indices leave the list unchanged
(in the embedded code both indices are always in range). -/
def swapIdx (l : List α) (i j : Nat) : List α :=
  match l[i]?, l[j]? with
  | some a, some b => (l.set i b).set j a
  | _, _ => l

/-- The Fisher-Yates loop of `rand::seq::SliceRandom::shuffle`:
`for i in (1..len).rev() { swap(i, gen_range(0..=i)) }`.  The argument is
the next swap index to process. -/
def shuffleGo : List α → Rng → Nat → List α × Rng
  | l, r, 0 => (l, r)
  | l, r, i+1 =>
    let d := r.genBelow (i+2)
    shuffleGo (swapIdx l (i+1) d.1) d.2 i

/-- Rust `slice.shuffle(rng)`. -/
def fyShuffle (l : List α) (r : Rng) : List α × Rng :=
  shuffleGo l r (l.length - 1)

/-- Rust `iter().enumerate()` starting at `n`. -/
def enumFrom (n : Nat) : List α → List (Nat × α)
  | [] => []
  | x :: rest => (n, x) :: enumFrom (n+1) rest

/-- The label a compound contributes as an answer option under the mode. -/
def optionLabel : QuizMode → Compound → String
  | .nameToStructure, c => c.display_structure
  | .structureToName, c => c.display_name

/-- The complementary label used as the prompt under the mode. -/
def promptLabel : QuizMode → Compound → String
  | .nameToStructure, c => c.display_name
  | .structureToName, c => c.display_structure

/-- Option label of the compound at index `i` (empty when out of range;
in the embedded code the index is always in range). -/
def labelAt (compounds : List Compound) (mode : QuizMode) (i : Nat) : String :=
  match compounds[i]? with
  | some c => optionLabel mode c
  | none => ""

/-- The dedup loop of `generate_quiz`: walk the enumerated compounds,
keeping an index exactly when its option label was not seen before
(`seen.insert(label)` on a `HashSet`). -/
def dedupGo (mode : QuizMode) : List (Nat × Compound) → List String → List Nat
  | [], _ => []
  | (idx, c) :: rest, seen =>
    let label := optionLabel mode c
    if label ∈ seen then dedupGo mode rest seen
    else idx :: dedupGo mode rest (label :: seen)

/-- The `unique_indices` vector computed by `generate_quiz`. -/
def uniqueIndices (compounds : List Compound) (mode : QuizMode) : List Nat :=
  dedupGo mode (enumFrom 0 compounds) []

/-- Building the `(index, option_text)` pairs for the selected indices;
`none` models the panic of an out-of-range `compounds[*idx]`. -/
def buildOptions (compounds : List Compound) (mode : QuizMode) :
    List Nat → Option (List (Nat × String))
  | [] => some []
  | idx :: rest =>
    match compounds[idx]?, buildOptions compounds mode rest with
    | some c, some acc => some ((idx, optionLabel mode c) :: acc)
    | _, _ => none

/-- Rust `Iterator::position`. -/
def position (p : α → Bool) : List α → Option Nat
  | [] => none
  | x :: rest => if p x then some 0 else (position p rest).map (· + 1)

/-- Rust `generate_quiz` from `quiz.rs`, step by step: validate `option_count`,
validate availability, dedup by option label, validate uniqueness, shuffle
and truncate, designate the correct compound, render and re-shuffle the
options, locate the correct index, render the prompt. -/
def generateQuiz (rng : Rng) (compounds : List Compound) (mode : QuizMode)
    (optionCount : Nat) : QuizOutcome :=
  if optionCount < 2 then .err .optionCountTooSmall
  else if compounds.length < optionCount then
    .err (.notEnoughCompounds optionCount compounds.length)
  else
    let uniq := uniqueIndices compounds mode
    if uniq.length < optionCount then
      .err (.insufficientUniqueOptions optionCount uniq.length)
    else
      let sr := fyShuffle uniq rng
      let selected := sr.1.take optionCount
      match selected with
      | [] => .crash
      | correct :: _ =>
        match buildOptions compounds mode selected with
        | none => .crash
        | some opts =>
          let os := fyShuffle opts sr.2
          match position (fun p => p.1 == correct) os.1 with
          | none => .crash
          | some ci =>
            match compounds[correct]? with
            | none => .crash
            | some c =>
              .ok ⟨mode, promptLabel mode c, os.1.map Prod.snd, ci⟩

/-- Rust `CatalogEntry` in `catalog.rs`. -/
structure CatalogEntry where
  compound : Compound
  categories : List String
deriving DecidableEq

/-- Rust `Catalog` in `catalog.rs`. -/
structure Catalog where
  entries : List CatalogEntry
deriving DecidableEq

/-- Rust `CatalogError` in `catalog.rs`. -/
inductive CatalogError where
  | emptyPath
  | categoryNotFound (path : String)
deriving DecidableEq

/-- Rust `Catalog::compounds_for`: entries whose category path starts with the
queried path (`starts_with` on slices), cloned out in entry order. -/
def compoundsFor (cat : Catalog) (path : List String) :
    Except CatalogError (List Compound) :=
  if path.isEmpty then .error .emptyPath
  else
    let ms := (cat.entries.filter (fun e => path.isPrefixOf e.categories)).map
      CatalogEntry.compound
    if ms.isEmpty then
      .error (.categoryNotFound (String.intercalate " / " path))
    else .ok ms

/-- Lexicographic strict order on category paths: the order of
`Vec<String>` used by `BTreeSet` (element order is the byte-lexicographic
order of `String`, which coincides with code-point order). -/
def pathLt (p q : List String) : Prop :=
  List.Lex (· < ·) p q

instance pathLt.instDecidableRel : DecidableRel pathLt :=
  fun p q => List.Lex.decidableRel _ p q

/-- Ordered-set insertion: the effect of `BTreeSet::insert` on the sorted
sequence of stored keys (existing keys are kept, new keys inserted at their
ordered place). -/
def insertPath (p : List String) : List (List String) → List (List String)
  | [] => [p]
  | q :: rest =>
    if pathLt p q then p :: q :: rest
    else if p = q then q :: rest
    else q :: insertPath p rest

/-- The prefixes inserted for one entry by `available_paths`
(`for depth in 1..=entry.categories.len() { categories[..depth] }`). -/
def prefixesOf (cats : List String) : List (List String) :=
  (List.range cats.length).map (fun d => cats.take (d+1))

/-- Rust `Catalog::available_paths`, with the `BTreeSet` represented by its
sorted sequence of keys. -/
def availablePaths (cat : Catalog) : List (List String) :=
  cat.entries.foldl
    (fun acc e => (prefixesOf e.categories).foldl (fun acc2 p => insertPath p acc2) acc)
    []

/-- Rust `CatalogLoadError` in `catalog.rs` (the payload keeps only the path;
the wrapped io/serde causes have no content relevant here). -/
inductive CatalogLoadError where
  | emptyCategoryPath
  | readError (path : String)
  | parseError (path : String)
deriving DecidableEq

/-- A file-system tree as seen by a successful `fs::read_dir` walk: a
directory with named children, or a file whose JSON parse outcome is
`some compounds` (the `compounds` field of the document) or `none`
(malformed document). -/
inductive FsNode where
  | dir (name : String) (children : List FsNode)
  | file (name : String) (content : Option (List Compound))

/-- Rust `path.extension() == Some("json")`: the file name has a non-empty stem
followed by a `.json` suffix (checked on the character list). -/
def extensionIsJson (name : String) : Bool :=
  ".json".data.isSuffixOf name.data && name != ".json"

/-- Rust `append_from_file` from `catalog.rs`: at the root (empty category path)
`index.json` is skipped and any other data file is an error; otherwise the
parsed compounds are appended at the current category path. -/
def appendFromFile (name : String) (content : Option (List Compound))
    (categories : List String) : Except CatalogLoadError (List CatalogEntry) :=
  if categories.isEmpty then
    if name = "index.json" then .ok []
    else .error .emptyCategoryPath
  else
    match content with
    | none => .error (.parseError name)
    | some compounds => .ok (compounds.map (fun c => ⟨c, categories⟩))

mutual

/-- One step of `collect_entries`: a subdirectory appends its name to the
category path and is recursed into; a `.json` file is handed to
`append_from_file`; other files are ignored. -/
def collectNode (categories : List String) :
    FsNode → Except CatalogLoadError (List CatalogEntry)
  | .dir name children => collectChildren (categories ++ [name]) children
  | .file name content =>
    if extensionIsJson name then appendFromFile name content categories
    else .ok []

/-- Rust `collect_entries` over the children of one directory, in read order,
short-circuiting on the first error. -/
def collectChildren (categories : List String) :
    List FsNode → Except CatalogLoadError (List CatalogEntry)
  | [] => .ok []
  | n :: rest => do
    let a ← collectNode categories n
    let b ← collectChildren categories rest
    .ok (a ++ b)

end

/-- Rust `Catalog::from_directory`, applied to the children of the root
directory. -/
def fromDirectory (rootChildren : List FsNode) :
    Except CatalogLoadError Catalog :=
  (collectChildren [] rootChildren).map Catalog.mk

/-- Rust `CatalogNode` in `catalog_manifest.rs`. -/
inductive CatalogNode where
  | mk (label slug : String) (file : Option String) (children : List CatalogNode)

/-- The `label` field of a node. -/
def CatalogNode.label : CatalogNode → String
  | .mk l _ _ _ => l

/-- The `file` field of a node. -/
def CatalogNode.file : CatalogNode → Option String
  | .mk _ _ f _ => f

/-- The `children` field of a node. -/
def CatalogNode.children : CatalogNode → List CatalogNode
  | .mk _ _ _ cs => cs

/-- Rust `CatalogManifest` in `catalog_manifest.rs`. -/
structure CatalogManifest where
  roots : List CatalogNode

/-- Rust `CatalogLeaf` in `catalog_manifest.rs`. -/
structure CatalogLeaf where
  path : List String
  file : String
deriving DecidableEq

mutual

/-- Rust `gather_leaves`: push the node's label, emit a leaf when `file` is
present, then descend into the children with the extended prefix. -/
def gatherLeaves : CatalogNode → List String → List CatalogLeaf
  | .mk label _ f children, pfx =>
    (match f with
     | some fileRef => [⟨pfx ++ [label], fileRef⟩]
     | none => []) ++ gatherList children (pfx ++ [label])

/-- Rust `gather_leaves` mapped over a sibling list in order. -/
def gatherList : List CatalogNode → List String → List CatalogLeaf
  | [], _ => []
  | n :: rest, pfx => gatherLeaves n pfx ++ gatherList rest pfx

end

/-- Rust `CatalogManifest::leaves`. -/
def CatalogManifest.leaves (m : CatalogManifest) : List CatalogLeaf :=
  gatherList m.roots []

mutual

/-- Specification-side pre-order listing of every node of a subtree as the
pair (root-to-node label chain, its `file` field). -/
def chainsNode : CatalogNode → List (List String × Option String)
  | .mk label _ f children =>
    ([label], f) :: (chainsList children).map (fun p => (label :: p.1, p.2))

/-- Specification helper `chainsNode` over a sibling list in order. -/
def chainsList : List CatalogNode → List (List String × Option String)
  | [] => []
  | n :: rest => chainsNode n ++ chainsList rest

end

mutual

/-- Number of file-bearing nodes in a subtree. -/
def countFilesNode : CatalogNode → Nat
  | .mk _ _ f children => (if f.isSome then 1 else 0) + countFilesList children

/-- Number of file-bearing nodes in a forest. -/
def countFilesList : List CatalogNode → Nat
  | [] => 0
  | n :: rest => countFilesNode n + countFilesList rest

end

/-- A fixed random source used in concrete witnesses. -/
def rng0 : Rng := ⟨fun _ => 0, 0⟩

/-- The quiz item produced by `generateQuiz rng0 [cA, cB] .nameToStructure 2`,
used by a concrete witness. -/
def witnessItem1 : QuizItem := ⟨.nameToStructure, "b", ["SA (MA)", "SB (MB)"], 1⟩

/-- Sample compound with distinct labels, used in concrete witnesses. -/
def cA : Compound := ⟨"a", none, none, "SA", "MA", none, [], none, none⟩

/-- Sample compound with distinct labels, used in concrete witnesses. -/
def cB : Compound := ⟨"b", none, none, "SB", "MB", none, [], none, none⟩

/-- Sample compound with distinct labels, used in concrete witnesses. -/
def cC : Compound := ⟨"c", none, none, "SC", "MC", none, [], none, none⟩

/-- Sample catalog used in concrete witnesses. -/
def sampleCatalog : Catalog :=
  ⟨[⟨cA, ["Organic", "Alcohols"]⟩, ⟨cB, ["Inorganic"]⟩]⟩

/-! ### Shuffle permutation machinery -/

/-- Setting an index changes the multiset of elements by removing the old
element and adding the new one. -/
theorem count_set_add [DecidableEq α] (l : List α) (i : Nat) (b x : α)
    (h : i < l.length) :
    (l.set i b).count x + (if l[i] = x then 1 else 0)
      = l.count x + (if b = x then 1 else 0) := by
  induction l generalizing i with
  | nil => simp at h
  | cons c t ih =>
    cases i with
    | zero =>
      simp [List.count_cons]
      omega
    | succ n =>
      have hn : n < t.length := by simpa using h
      have hrec := ih n hn
      simp [List.count_cons]
      omega

/-- Swapping two indices preserves element counts. -/
theorem count_swapIdx [DecidableEq α] (l : List α) (i j : Nat) (x : α) :
    (swapIdx l i j).count x = l.count x := by
  rw [swapIdx]
  split
  · next a b hi hj =>
    obtain ⟨hil, hia⟩ := List.getElem?_eq_some_iff.mp hi
    obtain ⟨hjl, hjb⟩ := List.getElem?_eq_some_iff.mp hj
    have hjl' : j < (l.set i b).length := by simpa using hjl
    have hkey : (l.set i b)[j] = b := by
      rw [List.getElem_set]
      split <;> simp [hjb]
    have e1 := count_set_add (l.set i b) j a x hjl'
    rw [hkey] at e1
    have e2 := count_set_add l i b x hil
    rw [hia] at e2
    omega
  · rfl

/-- The function `swapIdx` produces a permutation of its input. -/
theorem swapIdx_perm [DecidableEq α] (l : List α) (i j : Nat) :
    (swapIdx l i j).Perm l :=
  List.perm_iff_count.mpr (fun x => count_swapIdx l i j x)

/-- The Fisher-Yates loop produces a permutation of its input. -/
theorem shuffleGo_perm [DecidableEq α] (i : Nat) :
    ∀ (l : List α) (r : Rng), (shuffleGo l r i).1.Perm l := by
  induction i with
  | zero => intro l r; exact List.Perm.refl l
  | succ n ih =>
    intro l r
    rw [shuffleGo]
    exact (ih _ _).trans (swapIdx_perm l (n+1) _)

/-- The function `fyShuffle` produces a permutation of its input. -/
theorem fyShuffle_perm [DecidableEq α] (l : List α) (r : Rng) :
    (fyShuffle l r).1.Perm l :=
  shuffleGo_perm _ l r

/-! ### Enumeration, dedup, option building, position -/

/-- Membership in an enumerated list. -/
theorem mem_enumFrom_iff (l : List α) :
    ∀ (n i : Nat) (x : α),
      (i, x) ∈ enumFrom n l ↔ n ≤ i ∧ l[i - n]? = some x := by
  induction l with
  | nil => intro n i x; simp [enumFrom]
  | cons c t ih =>
    intro n i x
    constructor
    · intro hmem
      have hsplit : (i, x) = (n, c) ∨ (i, x) ∈ enumFrom (n+1) t := by
        simpa [enumFrom] using hmem
      rcases hsplit with heq | htail
      · obtain ⟨rfl, rfl⟩ : i = n ∧ x = c := by simpa using heq
        simp
      · obtain ⟨hle, hget⟩ := (ih (n+1) i x).mp htail
        refine ⟨by omega, ?_⟩
        have hstep : i - n = (i - (n+1)) + 1 := by omega
        rw [hstep]
        simpa using hget
    · rintro ⟨hle, hget⟩
      by_cases hin : i = n
      · subst hin
        have : x = c := by simpa using hget.symm
        subst this
        simp [enumFrom]
      · have hstep : i - n = (i - (n+1)) + 1 := by omega
        rw [hstep] at hget
        have hget' : t[i - (n+1)]? = some x := by simpa using hget
        have hmem := (ih (n+1) i x).mpr ⟨by omega, hget'⟩
        simp only [enumFrom, List.mem_cons]
        exact Or.inr hmem

/-- Every index kept by the dedup walk comes from the walked list. -/
theorem dedupGo_mem {mode : QuizMode} :
    ∀ (l : List (Nat × Compound)) (seen : List String) (i : Nat),
      i ∈ dedupGo mode l seen → ∃ c, (i, c) ∈ l := by
  intro l
  induction l with
  | nil => intro seen i h; simp [dedupGo] at h
  | cons p rest ih =>
    intro seen i h
    obtain ⟨idx, c⟩ := p
    by_cases hm : optionLabel mode c ∈ seen
    · rw [dedupGo, if_pos hm] at h
      obtain ⟨c', hc'⟩ := ih _ _ h
      exact ⟨c', List.mem_cons_of_mem _ hc'⟩
    · rw [dedupGo, if_neg hm] at h
      rcases List.mem_cons.mp h with rfl | h'
      · exact ⟨c, List.mem_cons_self _ _⟩
      · obtain ⟨c', hc'⟩ := ih _ _ h'
        exact ⟨c', List.mem_cons_of_mem _ hc'⟩

/-- The labels of the indices kept by the dedup walk are pairwise distinct
and avoid the already-seen labels. -/
theorem dedupGo_labels_nodup {compounds : List Compound} {mode : QuizMode} :
    ∀ (l : List (Nat × Compound)) (seen : List String),
      (∀ p ∈ l, labelAt compounds mode p.1 = optionLabel mode p.2) →
      ((dedupGo mode l seen).map (labelAt compounds mode)).Nodup ∧
      ∀ i ∈ dedupGo mode l seen, labelAt compounds mode i ∉ seen := by
  intro l
  induction l with
  | nil => intro seen _; simp [dedupGo]
  | cons p rest ih =>
    intro seen hlab
    obtain ⟨idx, c⟩ := p
    have hlabel : labelAt compounds mode idx = optionLabel mode c :=
      hlab (idx, c) (List.mem_cons_self _ _)
    have hrest : ∀ q ∈ rest, labelAt compounds mode q.1 = optionLabel mode q.2 :=
      fun q hq => hlab q (List.mem_cons_of_mem _ hq)
    by_cases hm : optionLabel mode c ∈ seen
    · rw [dedupGo, if_pos hm]
      exact ih seen hrest
    · rw [dedupGo, if_neg hm]
      obtain ⟨hnodup, hnot⟩ := ih (optionLabel mode c :: seen) hrest
      constructor
      · simp only [List.map_cons, List.nodup_cons]
        refine ⟨?_, hnodup⟩
        intro hmem
        rw [List.mem_map] at hmem
        obtain ⟨j, hj, hje⟩ := hmem
        have hjn := hnot j hj
        rw [hje, hlabel] at hjn
        exact hjn (List.mem_cons_self _ _)
      · intro i hi
        rcases List.mem_cons.mp hi with rfl | hi'
        · rw [hlabel]; exact hm
        · intro hcon
          exact hnot i hi' (List.mem_cons_of_mem _ hcon)

/-- When every selected index is in range, `buildOptions` succeeds and
returns the `(index, label)` pairs. -/
theorem buildOptions_eq_some {compounds : List Compound} {mode : QuizMode} :
    ∀ (sel : List Nat), (∀ i ∈ sel, i < compounds.length) →
      buildOptions compounds mode sel
        = some (sel.map (fun i => (i, labelAt compounds mode i))) := by
  intro sel
  induction sel with
  | nil => intro _; simp [buildOptions]
  | cons i rest ih =>
    intro hb
    have hi : i < compounds.length := hb i (List.mem_cons_self _ _)
    have hc : compounds[i]? = some compounds[i] := by
      simp [List.getElem?_eq_some_iff, hi]
    rw [buildOptions, hc, ih (fun j hj => hb j (List.mem_cons_of_mem _ hj))]
    simp [labelAt, hc]

/-- What a successful `position` tells us about the found index. -/
theorem position_eq_some_spec {p : α → Bool} :
    ∀ (l : List α) (i : Nat), position p l = some i →
      i < l.length ∧ ∃ x, l[i]? = some x ∧ p x := by
  intro l
  induction l with
  | nil => intro i h; simp [position] at h
  | cons a rest ih =>
    intro i h
    rw [position] at h
    by_cases hp : p a
    · rw [if_pos hp] at h
      obtain rfl : (0 : Nat) = i := by simpa using h
      exact ⟨by simp, a, by simp, hp⟩
    · rw [if_neg hp] at h
      obtain ⟨j, hj, rfl⟩ : ∃ j, position p rest = some j ∧ j + 1 = i := by
        simpa using h
      obtain ⟨hlt, x, hx, hpx⟩ := ih j hj
      exact ⟨by simpa using Nat.succ_lt_succ hlt, x, by simpa using hx, hpx⟩

/-- The function `position` succeeds when some element satisfies the predicate. -/
theorem position_isSome_of_exists {p : α → Bool} :
    ∀ (l : List α), (∃ x ∈ l, p x) → ∃ i, position p l = some i := by
  intro l
  induction l with
  | nil => rintro ⟨x, hx, _⟩; simp at hx
  | cons a rest ih =>
    rintro ⟨x, hx, hpx⟩
    by_cases hp : p a
    · exact ⟨0, by rw [position, if_pos hp]⟩
    · rcases List.mem_cons.mp hx with rfl | hx'
      · exact absurd hpx hp
      · obtain ⟨j, hj⟩ := ih ⟨x, hx', hpx⟩
        exact ⟨j + 1, by rw [position, if_neg hp, hj]; rfl⟩

/-- Master lemma for the success path of `generate_quiz`: when the three
validations pass, the call returns `ok` with an item satisfying all the
success invariants. -/
theorem generateQuiz_success (rng : Rng) (compounds : List Compound)
    (mode : QuizMode) (optionCount : Nat)
    (h2 : 2 ≤ optionCount)
    (hav : optionCount ≤ compounds.length)
    (huni : optionCount ≤ (uniqueIndices compounds mode).length) :
    ∃ item : QuizItem,
      generateQuiz rng compounds mode optionCount = .ok item ∧
      item.mode = mode ∧
      item.options.length = optionCount ∧
      item.correct_index < item.options.length ∧
      item.options.Nodup ∧
      ∃ c ∈ compounds,
        item.options[item.correct_index]? = some (optionLabel mode c) ∧
        item.prompt = promptLabel mode c := by
  have hlt2 : ¬ optionCount < 2 := by omega
  have hlenlt : ¬ compounds.length < optionCount := by omega
  have hulen : ¬ (uniqueIndices compounds mode).length < optionCount := by omega
  have hlabmap : ∀ p ∈ enumFrom 0 compounds,
      labelAt compounds mode p.1 = optionLabel mode p.2 := by
    intro p hp
    obtain ⟨i, cc⟩ := p
    have hg := ((mem_enumFrom_iff compounds 0 i cc).mp hp).2
    simp only [Nat.sub_zero] at hg
    simp [labelAt, hg]
  have hbound : ∀ i ∈ uniqueIndices compounds mode, i < compounds.length := by
    intro i hi
    obtain ⟨cc, hcc⟩ := dedupGo_mem _ _ i hi
    have hg := ((mem_enumFrom_iff compounds 0 i cc).mp hcc).2
    simp only [Nat.sub_zero] at hg
    exact (List.getElem?_eq_some_iff.mp hg).1
  have huniqNodup :
      ((uniqueIndices compounds mode).map (labelAt compounds mode)).Nodup :=
    (dedupGo_labels_nodup _ [] hlabmap).1
  obtain ⟨shuf, rng2, hfy⟩ :
      ∃ x y, fyShuffle (uniqueIndices compounds mode) rng = (x, y) := ⟨_, _, rfl⟩
  have hperm : shuf.Perm (uniqueIndices compounds mode) := by
    have h := fyShuffle_perm (uniqueIndices compounds mode) rng
    rwa [hfy] at h
  have hshufNodup : (shuf.map (labelAt compounds mode)).Nodup :=
    ((hperm.map (labelAt compounds mode)).nodup_iff).mpr huniqNodup
  have hsellen : (shuf.take optionCount).length = optionCount := by
    rw [List.length_take, hperm.length_eq]; omega
  obtain ⟨correct, tail, hsel⟩ : ∃ a t, shuf.take optionCount = a :: t := by
    cases hc : shuf.take optionCount with
    | nil => rw [hc] at hsellen; simp at hsellen; omega
    | cons a t => exact ⟨a, t, rfl⟩
  have htailen : (correct :: tail).length = optionCount := by
    rw [← hsel]; exact hsellen
  have hselmem : ∀ i ∈ correct :: tail, i ∈ uniqueIndices compounds mode := by
    intro i hi
    rw [← hsel] at hi
    exact hperm.mem_iff.mp (List.mem_of_mem_take hi)
  have hselbound : ∀ i ∈ correct :: tail, i < compounds.length :=
    fun i hi => hbound i (hselmem i hi)
  have hbuild := @buildOptions_eq_some compounds mode (correct :: tail) hselbound
  have hselNodup : ((correct :: tail).map (labelAt compounds mode)).Nodup := by
    have hsub := (List.take_sublist optionCount shuf).map (labelAt compounds mode)
    have h2' := List.Nodup.sublist hsub hshufNodup
    rwa [hsel] at h2'
  obtain ⟨opts2, rng3, hfy2⟩ :
      ∃ x y, fyShuffle
        ((correct :: tail).map (fun i => (i, labelAt compounds mode i))) rng2
        = (x, y) := ⟨_, _, rfl⟩
  have hperm2 : opts2.Perm
      ((correct :: tail).map (fun i => (i, labelAt compounds mode i))) := by
    have h := fyShuffle_perm
      ((correct :: tail).map (fun i => (i, labelAt compounds mode i))) rng2
    rwa [hfy2] at h
  have hmem0 : (correct, labelAt compounds mode correct) ∈ opts2 := by
    apply hperm2.mem_iff.mpr
    exact List.mem_map_of_mem _ (List.mem_cons_self _ _)
  obtain ⟨ci, hpos⟩ :=
    position_isSome_of_exists (p := fun p => p.1 == correct) opts2
      ⟨(correct, labelAt compounds mode correct), hmem0, by simp⟩
  obtain ⟨hci, q, hq, hqp⟩ :=
    position_eq_some_spec (p := fun p => p.1 == correct) opts2 ci hpos
  have hqmem : q ∈ opts2 := by
    have := List.getElem?_eq_some_iff.mp hq
    obtain ⟨hlt, hval⟩ := this
    rw [← hval]
    exact List.getElem_mem _
  have hqopts : q ∈ (correct :: tail).map (fun i => (i, labelAt compounds mode i)) :=
    hperm2.mem_iff.mp hqmem
  obtain ⟨i0, hi0mem, hi0eq⟩ := List.mem_map.mp hqopts
  have hq1 : q.1 = correct := by simpa using hqp
  have hqeq : q = (correct, labelAt compounds mode correct) := by
    have h1 : i0 = correct := by rw [← hi0eq] at hq1; simpa using hq1
    rw [← hi0eq, h1]
  have hcorlt : correct < compounds.length :=
    hselbound correct (List.mem_cons_self _ _)
  have hcor : compounds[correct]? = some compounds[correct] := by
    simp [List.getElem?_eq_some_iff, hcorlt]
  refine ⟨⟨mode, promptLabel mode compounds[correct], opts2.map Prod.snd, ci⟩,
    ?_, rfl, ?_, ?_, ?_, ?_⟩
  · simp only [generateQuiz]
    rw [if_neg hlt2, if_neg hlenlt, if_neg hulen]
    simp only [hfy, hsel, hbuild, hfy2, hpos, hcor]
  · show (opts2.map Prod.snd).length = optionCount
    rw [List.length_map, hperm2.length_eq, List.length_map, htailen]
  · show ci < (opts2.map Prod.snd).length
    rw [List.length_map]; exact hci
  · show (opts2.map Prod.snd).Nodup
    have hmap := hperm2.map Prod.snd
    apply hmap.nodup_iff.mpr
    rw [List.map_map]
    simpa [Function.comp] using hselNodup
  · refine ⟨compounds[correct], List.getElem_mem _, ?_, rfl⟩
    show (opts2.map Prod.snd)[ci]? = some (optionLabel mode compounds[correct])
    rw [List.getElem?_map, hq, hqeq]
    simp [labelAt, hcor]

/-- C8: with `option_count < 2` the call always fails with
`OptionCountTooSmall`, whatever the compounds, mode, and random source. -/
theorem generate_quiz_option_count_too_small
    (rng : Rng) (compounds : List Compound) (mode : QuizMode)
    (optionCount : Nat) (h : optionCount < 2) :
    generateQuiz rng compounds mode optionCount = .err .optionCountTooSmall := by
  simp [generateQuiz, h]

/-- C8 witness: concrete instance with one compound and `option_count = 1`. -/
theorem generate_quiz_option_count_too_small_witness :
    generateQuiz ⟨fun _ => 0, 0⟩ [] .nameToStructure 1 =
      .err .optionCountTooSmall :=
  generate_quiz_option_count_too_small ⟨fun _ => 0, 0⟩ [] .nameToStructure 1
    (by decide)

/-- C1: every successful `generate_quiz` call returns exactly
`option_count` pairwise-distinct options, a valid `correct_index`, and
`options[correct_index]` is the mode's option-rule label of a compound of
the input list whose complementary display string equals the prompt. -/
theorem generate_quiz_success_postcondition
    (rng : Rng) (compounds : List Compound) (mode : QuizMode)
    (optionCount : Nat) (item : QuizItem)
    (h : generateQuiz rng compounds mode optionCount = .ok item) :
    item.options.length = optionCount ∧
    item.correct_index < item.options.length ∧
    item.options.Nodup ∧
    ∃ c ∈ compounds,
      item.options[item.correct_index]? = some (optionLabel mode c) ∧
      item.prompt = promptLabel mode c := by
  by_cases h1 : optionCount < 2
  · simp only [generateQuiz, if_pos h1] at h
    exact QuizOutcome.noConfusion h
  by_cases h2 : compounds.length < optionCount
  · simp only [generateQuiz, if_neg h1, if_pos h2] at h
    exact QuizOutcome.noConfusion h
  by_cases h3 : (uniqueIndices compounds mode).length < optionCount
  · simp only [generateQuiz, if_neg h1, if_neg h2, if_pos h3] at h
    exact QuizOutcome.noConfusion h
  obtain ⟨item', heq, hmode, hlen, hci, hnd, hex⟩ :=
    generateQuiz_success rng compounds mode optionCount
      (by omega) (by omega) (by omega)
  rw [heq] at h
  injection h with h'
  subst h'
  exact ⟨hlen, hci, hnd, hex⟩

/-- C1 witness: the postcondition instantiated at a concrete successful
call. -/
theorem generate_quiz_success_postcondition_witness :
    witnessItem1.options.length = 2 ∧
    witnessItem1.correct_index < witnessItem1.options.length ∧
    witnessItem1.options.Nodup ∧
    ∃ c ∈ [cA, cB],
      witnessItem1.options[witnessItem1.correct_index]?
        = some (optionLabel .nameToStructure c) ∧
      witnessItem1.prompt = promptLabel .nameToStructure c :=
  generate_quiz_success_postcondition rng0 [cA, cB] .nameToStructure 2
    witnessItem1 (by decide)

/-- C2: `generate_quiz` is deterministic: as a pure function of its four
arguments, two calls with equal random-source states and equal inputs
produce equal outcomes; the embedding consults no other state. -/
theorem generate_quiz_deterministic
    (r1 r2 : Rng) (cs1 cs2 : List Compound) (m1 m2 : QuizMode) (n1 n2 : Nat)
    (hr : r1 = r2) (hc : cs1 = cs2) (hm : m1 = m2) (hn : n1 = n2) :
    generateQuiz r1 cs1 m1 n1 = generateQuiz r2 cs2 m2 n2 := by
  subst hr; subst hc; subst hm; subst hn; rfl

/-- C2 witness: determinism at a concrete call. -/
theorem generate_quiz_deterministic_witness :
    generateQuiz rng0 [cA, cB] .nameToStructure 2
      = generateQuiz rng0 [cA, cB] .nameToStructure 2 :=
  generate_quiz_deterministic rng0 rng0 [cA, cB] [cA, cB]
    .nameToStructure .nameToStructure 2 2 rfl rfl rfl rfl

/-- C3: when `2 ≤ option_count ≤ compounds.len()` but the first-occurrence
dedup walk keeps only `k < option_count` distinct option labels, the call
fails with exactly `InsufficientUniqueOptions{required: option_count,
unique: k}`. -/
theorem generate_quiz_insufficient_unique_spec
    (rng : Rng) (compounds : List Compound) (mode : QuizMode)
    (optionCount : Nat)
    (h2 : 2 ≤ optionCount) (hav : optionCount ≤ compounds.length)
    (hk : (uniqueIndices compounds mode).length < optionCount) :
    generateQuiz rng compounds mode optionCount
      = .err (.insufficientUniqueOptions optionCount
          (uniqueIndices compounds mode).length) := by
  have hlt2 : ¬ optionCount < 2 := by omega
  have hlen : ¬ compounds.length < optionCount := by omega
  simp only [generateQuiz, if_neg hlt2, if_neg hlen, if_pos hk]

/-- C3 witness: two compounds with identical labels plus one distinct
compound, requesting 3 options, fails with
`InsufficientUniqueOptions{required: 3, unique: 2}`. -/
theorem generate_quiz_insufficient_unique_spec_witness :
    generateQuiz rng0 [cA, cA, cB] .structureToName 3
      = .err (.insufficientUniqueOptions 3
          (uniqueIndices [cA, cA, cB] .structureToName).length) ∧
    (uniqueIndices [cA, cA, cB] .structureToName).length = 2 :=
  ⟨generate_quiz_insufficient_unique_spec rng0 [cA, cA, cB] .structureToName 3
      (by decide) (by decide) (by decide),
    by decide⟩

/-- C9 counterexample: with `option_count = 1` and zero compounds,
`compounds.len() < option_count` holds, yet the call returns
`OptionCountTooSmall` (the option-count validation runs first), not
`NotEnoughCompounds{required: 1, available: 0}` as the claim demands. -/
theorem not_enough_compounds_counterexample :
    generateQuiz rng0 [] .nameToStructure 1 = .err .optionCountTooSmall ∧
    generateQuiz rng0 [] .nameToStructure 1
      ≠ .err (.notEnoughCompounds 1 0) := by
  constructor
  · decide
  · decide

/-- C9 amended: for inputs that pass the option-count validation
(`option_count ≥ 2`), `compounds.len() < option_count` always fails with
`NotEnoughCompounds{required: option_count, available: compounds.len()}`. -/
theorem not_enough_compounds_amended
    (rng : Rng) (compounds : List Compound) (mode : QuizMode)
    (optionCount : Nat)
    (h2 : 2 ≤ optionCount) (h : compounds.length < optionCount) :
    generateQuiz rng compounds mode optionCount
      = .err (.notEnoughCompounds optionCount compounds.length) := by
  have hlt2 : ¬ optionCount < 2 := by omega
  simp only [generateQuiz, if_neg hlt2, if_pos h]

/-- C9 witness: one compound, three requested options. -/
theorem not_enough_compounds_amended_witness :
    generateQuiz rng0 [cA] .nameToStructure 3
      = .err (.notEnoughCompounds 3 1) :=
  not_enough_compounds_amended rng0 [cA] .nameToStructure 3
    (by decide) (by decide)

/-- C10: `generate_quiz` is total on inputs that pass its three
validations: it returns `ok` and never reaches a panic site (the
`selected[0]` access and the post-shuffle position lookup always
succeed). -/
theorem generate_quiz_total_on_valid
    (rng : Rng) (compounds : List Compound) (mode : QuizMode)
    (optionCount : Nat)
    (h2 : 2 ≤ optionCount) (hav : optionCount ≤ compounds.length)
    (huni : optionCount ≤ (uniqueIndices compounds mode).length) :
    (∃ item, generateQuiz rng compounds mode optionCount = .ok item) ∧
    generateQuiz rng compounds mode optionCount ≠ .crash := by
  obtain ⟨item, heq, -⟩ :=
    generateQuiz_success rng compounds mode optionCount h2 hav huni
  refine ⟨⟨item, heq⟩, ?_⟩
  rw [heq]
  exact fun hcon => QuizOutcome.noConfusion hcon

/-- C10 witness: totality at a concrete valid input. -/
theorem generate_quiz_total_on_valid_witness :
    (∃ item, generateQuiz rng0 [cA, cB] .nameToStructure 2 = .ok item) ∧
    generateQuiz rng0 [cA, cB] .nameToStructure 2 ≠ .crash :=
  generate_quiz_total_on_valid rng0 [cA, cB] .nameToStructure 2
    (by decide) (by decide) (by decide)

/-! ### Catalog: category-prefix lookup -/

/-- Rust `starts_with` on slices is the element-wise prefix test. -/
theorem isPrefixOf_iff_take_eq :
    ∀ (p l : List String), p.isPrefixOf l = true ↔ l.take p.length = p
  | [], l => by simp [List.isPrefixOf]
  | a :: p, [] => by simp [List.isPrefixOf]
  | a :: p, b :: l => by
    simp only [List.isPrefixOf, Bool.and_eq_true, beq_iff_eq, List.length_cons,
      List.take_succ_cons, List.cons.injEq, isPrefixOf_iff_take_eq p l]
    tauto

/-- C4: `compounds_for` fails with `EmptyPath` on the empty path; on a
non-empty path it fails with `CategoryNotFound` carrying the path joined by
`" / "` when no entry's category path extends it, and otherwise returns the
compounds of exactly the entries whose category path has the queried path
as an element-wise prefix, in entry order. -/
theorem compounds_for_spec (cat : Catalog) (path : List String) :
    (path = [] → compoundsFor cat path = .error .emptyPath) ∧
    (path ≠ [] →
      (∀ e ∈ cat.entries, e.categories.take path.length ≠ path) →
      compoundsFor cat path
        = .error (.categoryNotFound (String.intercalate " / " path))) ∧
    (path ≠ [] →
      (∃ e ∈ cat.entries, e.categories.take path.length = path) →
      compoundsFor cat path
        = .ok ((cat.entries.filter
            (fun e => e.categories.take path.length == path)).map
            CatalogEntry.compound)) := by
  have hfc : cat.entries.filter (fun e => path.isPrefixOf e.categories)
      = cat.entries.filter (fun e => e.categories.take path.length == path) := by
    apply List.filter_congr
    intro e _
    rw [Bool.eq_iff_iff, isPrefixOf_iff_take_eq]
    simp
  refine ⟨?_, ?_, ?_⟩
  · intro hp
    subst hp
    simp [compoundsFor]
  · intro hne hnone
    have hpe : path.isEmpty = false := by
      cases path with
      | nil => simp at hne
      | cons a t => rfl
    have hfil : cat.entries.filter
        (fun e => e.categories.take path.length == path) = [] := by
      rw [List.filter_eq_nil_iff]
      intro e he
      simp only [beq_iff_eq]
      exact hnone e he
    simp [compoundsFor, hpe, hfc, hfil]
  · intro hne hex
    have hpe : path.isEmpty = false := by
      cases path with
      | nil => simp at hne
      | cons a t => rfl
    have hfil : cat.entries.filter
        (fun e => e.categories.take path.length == path) ≠ [] := by
      obtain ⟨e, he, hm⟩ := hex
      intro hcon
      have hin : e ∈ cat.entries.filter
          (fun e => e.categories.take path.length == path) :=
        List.mem_filter.mpr ⟨he, by simpa using hm⟩
      rw [hcon] at hin
      simp at hin
    simp [compoundsFor, hpe, hfc, List.isEmpty_eq_false, hfil]

/-- C4 witness: lookup of `["Organic"]` in the sample catalog. -/
theorem compounds_for_spec_witness :
    compoundsFor sampleCatalog ["Organic"] = .ok [cA] :=
  (compounds_for_spec sampleCatalog ["Organic"]).2.2 (by decide)
    ⟨⟨cA, ["Organic", "Alcohols"]⟩, by decide, by decide⟩

/-! ### Catalog: available paths -/

/-- Transitivity of the path order. -/
theorem pathLt_trans {a b c : List String}
    (h1 : pathLt a b) (h2 : pathLt b c) : pathLt a c :=
  trans_of (List.Lex (· < ·)) h1 h2

/-- Trichotomy of the path order. -/
theorem pathLt_trichotomy (a b : List String) :
    pathLt a b ∨ a = b ∨ pathLt b a :=
  trichotomous_of (List.Lex (· < ·)) a b

/-- Irreflexivity of the path order. -/
theorem pathLt_irrefl (a : List String) : ¬ pathLt a a :=
  irrefl_of (List.Lex (· < ·)) a

/-- Membership after an ordered-set insertion. -/
theorem mem_insertPath_iff (p x : List String) :
    ∀ (l : List (List String)), x ∈ insertPath p l ↔ x = p ∨ x ∈ l := by
  intro l
  induction l with
  | nil => simp [insertPath]
  | cons q rest ih =>
    rw [insertPath]
    by_cases h1 : pathLt p q
    · rw [if_pos h1]
      simp only [List.mem_cons]
    · rw [if_neg h1]
      by_cases h2 : p = q
      · rw [if_pos h2]
        subst h2
        simp only [List.mem_cons]
        tauto
      · rw [if_neg h2]
        simp only [List.mem_cons, ih]
        tauto

/-- Ordered-set insertion preserves strict sortedness. -/
theorem insertPath_pairwise {p : List String} :
    ∀ {l : List (List String)},
      l.Pairwise pathLt → (insertPath p l).Pairwise pathLt := by
  intro l
  induction l with
  | nil =>
    intro _
    simp [insertPath]
  | cons q rest ih =>
    intro hpw
    obtain ⟨hq, hrest⟩ := List.pairwise_cons.mp hpw
    rw [insertPath]
    by_cases h1 : pathLt p q
    · rw [if_pos h1]
      refine List.pairwise_cons.mpr ⟨?_, hpw⟩
      intro y hy
      rcases List.mem_cons.mp hy with rfl | hy'
      · exact h1
      · exact pathLt_trans h1 (hq y hy')
    · rw [if_neg h1]
      by_cases h2 : p = q
      · rw [if_pos h2]
        exact hpw
      · rw [if_neg h2]
        refine List.pairwise_cons.mpr ⟨?_, ih hrest⟩
        intro y hy
        rcases (mem_insertPath_iff p y rest).mp hy with rfl | hy'
        · rcases pathLt_trichotomy y q with h | h | h
          · exact absurd h h1
          · exact absurd h h2
          · exact h
        · exact hq y hy'

/-- Membership after folding ordered-set insertions over a batch. -/
theorem mem_foldl_insertPath_iff (ps : List (List String)) :
    ∀ (acc : List (List String)) (x : List String),
      x ∈ ps.foldl (fun acc2 p => insertPath p acc2) acc ↔ x ∈ acc ∨ x ∈ ps := by
  induction ps with
  | nil => intro acc x; simp
  | cons p rest ih =>
    intro acc x
    rw [List.foldl_cons, ih, mem_insertPath_iff]
    simp only [List.mem_cons]
    tauto

/-- Folding ordered-set insertions preserves strict sortedness. -/
theorem foldl_insertPath_pairwise (ps : List (List String)) :
    ∀ (acc : List (List String)), acc.Pairwise pathLt →
      (ps.foldl (fun acc2 p => insertPath p acc2) acc).Pairwise pathLt := by
  induction ps with
  | nil => intro acc h; exact h
  | cons p rest ih =>
    intro acc h
    rw [List.foldl_cons]
    exact ih _ (insertPath_pairwise h)

/-- Membership in the per-entry prefix batch: exactly the non-empty
element-wise prefixes of the entry's category path. -/
theorem mem_prefixesOf_iff (cats x : List String) :
    x ∈ prefixesOf cats ↔ x ≠ [] ∧ cats.take x.length = x := by
  unfold prefixesOf
  rw [List.mem_map]
  constructor
  · rintro ⟨d, hd, rfl⟩
    rw [List.mem_range] at hd
    have hlen : (cats.take (d+1)).length = d + 1 := by
      rw [List.length_take]; omega
    refine ⟨?_, ?_⟩
    · intro hcon
      rw [hcon] at hlen
      simp at hlen
    · rw [hlen]
  · rintro ⟨hne, htake⟩
    have hpos : 0 < x.length := List.length_pos.mpr hne
    have hle : x.length ≤ cats.length := by
      by_contra hgt
      have : (cats.take x.length).length = cats.length := by
        rw [List.length_take]; omega
      rw [htake] at this
      omega
    refine ⟨x.length - 1, ?_, ?_⟩
    · rw [List.mem_range]; omega
    · have hstep : x.length - 1 + 1 = x.length := by omega
      rw [hstep, htake]

/-- C6: `available_paths()` is exactly the set of all non-empty
element-wise prefixes of the entries' category paths, with duplicates
removed, in strictly increasing lexicographic order. -/
theorem available_paths_spec (cat : Catalog) :
    (∀ p, p ∈ availablePaths cat ↔
      p ≠ [] ∧ ∃ e ∈ cat.entries, e.categories.take p.length = p) ∧
    (availablePaths cat).Pairwise pathLt ∧
    (availablePaths cat).Nodup := by
  have hmem : ∀ (entries : List CatalogEntry) (acc : List (List String)) (p : List String),
      p ∈ entries.foldl
        (fun acc e => (prefixesOf e.categories).foldl (fun acc2 q => insertPath q acc2) acc)
        acc
      ↔ p ∈ acc ∨ ∃ e ∈ entries, p ∈ prefixesOf e.categories := by
    intro entries
    induction entries with
    | nil => intro acc p; simp
    | cons e rest ih =>
      intro acc p
      rw [List.foldl_cons, ih, mem_foldl_insertPath_iff]
      simp only [List.mem_cons]
      constructor
      · rintro ((h | h) | ⟨e', he', hp⟩)
        · exact Or.inl h
        · exact Or.inr ⟨e, Or.inl rfl, h⟩
        · exact Or.inr ⟨e', Or.inr he', hp⟩
      · rintro (h | ⟨e', he' | he', hp⟩)
        · exact Or.inl (Or.inl h)
        · subst he'
          exact Or.inl (Or.inr hp)
        · exact Or.inr ⟨e', he', hp⟩
  have hpw : ∀ (entries : List CatalogEntry) (acc : List (List String)),
      acc.Pairwise pathLt →
      (entries.foldl
        (fun acc e => (prefixesOf e.categories).foldl (fun acc2 q => insertPath q acc2) acc)
        acc).Pairwise pathLt := by
    intro entries
    induction entries with
    | nil => intro acc h; exact h
    | cons e rest ih =>
      intro acc h
      rw [List.foldl_cons]
      exact ih _ (foldl_insertPath_pairwise _ _ h)
  have hpair : (availablePaths cat).Pairwise pathLt := hpw cat.entries [] (by simp)
  refine ⟨?_, hpair, ?_⟩
  · intro p
    rw [availablePaths, hmem]
    simp only [List.not_mem_nil, false_or]
    constructor
    · rintro ⟨e, he, hp⟩
      obtain ⟨hne, htake⟩ := (mem_prefixesOf_iff e.categories p).mp hp
      exact ⟨hne, e, he, htake⟩
    · rintro ⟨hne, e, he, htake⟩
      exact ⟨e, he, (mem_prefixesOf_iff e.categories p).mpr ⟨hne, htake⟩⟩
  · exact hpair.imp (fun h => by
      intro hcon
      subst hcon
      exact pathLt_irrefl _ h)

/-- C6 witness: a one-segment prefix of a two-segment entry is present. -/
theorem available_paths_spec_witness :
    ["Organic"] ∈ availablePaths sampleCatalog :=
  ((available_paths_spec sampleCatalog).1 ["Organic"]).mpr
    ⟨by decide, ⟨cA, ["Organic", "Alcohols"]⟩, by decide, by decide⟩


/-! ### Manifest flattening -/

/-- Unfolding equation for `gatherLeaves`. -/
theorem gatherLeaves_mk (label slug : String) (f : Option String)
    (children : List CatalogNode) (pfx : List String) :
    gatherLeaves (.mk label slug f children) pfx
      = (match f with
         | some fileRef => [(⟨pfx ++ [label], fileRef⟩ : CatalogLeaf)]
         | none => []) ++ gatherList children (pfx ++ [label]) := by
  rw [gatherLeaves.eq_def]

/-- Unfolding equation for `gatherList` on `[]`. -/
theorem gatherList_nil (pfx : List String) : gatherList [] pfx = [] := by
  rw [gatherList.eq_def]

/-- Unfolding equation for `gatherList` on `::`. -/
theorem gatherList_cons (n : CatalogNode) (rest : List CatalogNode)
    (pfx : List String) :
    gatherList (n :: rest) pfx = gatherLeaves n pfx ++ gatherList rest pfx := by
  rw [gatherList.eq_def]

/-- Unfolding equation for `chainsNode`. -/
theorem chainsNode_mk (label slug : String) (f : Option String)
    (children : List CatalogNode) :
    chainsNode (.mk label slug f children)
      = ([label], f) :: (chainsList children).map (fun p => (label :: p.1, p.2)) := by
  rw [chainsNode.eq_def]

/-- Unfolding equation for `chainsList` on `[]`. -/
theorem chainsList_nil : chainsList [] = [] := by
  rw [chainsList.eq_def]

/-- Unfolding equation for `chainsList` on `::`. -/
theorem chainsList_cons (n : CatalogNode) (rest : List CatalogNode) :
    chainsList (n :: rest) = chainsNode n ++ chainsList rest := by
  rw [chainsList.eq_def]

/-- Unfolding equation for `countFilesNode`. -/
theorem countFilesNode_mk (label slug : String) (f : Option String)
    (children : List CatalogNode) :
    countFilesNode (.mk label slug f children)
      = (if f.isSome then 1 else 0) + countFilesList children := by
  rw [countFilesNode.eq_def]

/-- Unfolding equation for `countFilesList` on `[]`. -/
theorem countFilesList_nil : countFilesList [] = 0 := by
  rw [countFilesList.eq_def]

/-- Unfolding equation for `countFilesList` on `::`. -/
theorem countFilesList_cons (n : CatalogNode) (rest : List CatalogNode) :
    countFilesList (n :: rest) = countFilesNode n + countFilesList rest := by
  rw [countFilesList.eq_def]

mutual

/-- Rust `gather_leaves` on a node emits, in pre-order, one leaf per
file-bearing node of the subtree, with the path equal to the accumulated
prefix extended by the root-to-node label chain. -/
theorem gatherLeaves_eq_chains :
    ∀ (node : CatalogNode) (pfx : List String),
      gatherLeaves node pfx
        = (chainsNode node).filterMap
            (fun p => p.2.map (fun f => (⟨pfx ++ p.1, f⟩ : CatalogLeaf)))
  | .mk label slug f children, pfx => by
    rw [gatherLeaves_mk, chainsNode_mk, List.filterMap_cons,
      gatherList_eq_chains children (pfx ++ [label]), List.filterMap_map]
    cases f with
    | none =>
      simp only [Option.map_none', List.nil_append]
      apply List.filterMap_congr
      intro p _
      obtain ⟨c1, f1⟩ := p
      cases f1 <;> simp [Function.comp, List.append_assoc]
    | some fr =>
      simp only [Option.map_some', List.singleton_append]
      congr 1
      apply List.filterMap_congr
      intro p _
      obtain ⟨c1, f1⟩ := p
      cases f1 <;> simp [Function.comp, List.append_assoc]

/-- Rust `gather_leaves` over a sibling list, same statement. -/
theorem gatherList_eq_chains :
    ∀ (ns : List CatalogNode) (pfx : List String),
      gatherList ns pfx
        = (chainsList ns).filterMap
            (fun p => p.2.map (fun f => (⟨pfx ++ p.1, f⟩ : CatalogLeaf)))
  | [], pfx => by simp [gatherList_nil, chainsList_nil]
  | n :: rest, pfx => by
    rw [gatherList_cons, chainsList_cons, List.filterMap_append,
      gatherLeaves_eq_chains n pfx, gatherList_eq_chains rest pfx]

end

mutual

/-- A subtree contributes exactly one leaf per file-bearing node. -/
theorem gatherLeaves_length :
    ∀ (node : CatalogNode) (pfx : List String),
      (gatherLeaves node pfx).length = countFilesNode node
  | .mk label slug f children, pfx => by
    rw [gatherLeaves_mk, countFilesNode_mk, List.length_append,
      gatherList_length children (pfx ++ [label])]
    cases f <;> simp

/-- A forest contributes exactly one leaf per file-bearing node. -/
theorem gatherList_length :
    ∀ (ns : List CatalogNode) (pfx : List String),
      (gatherList ns pfx).length = countFilesList ns
  | [], pfx => by rw [gatherList_nil, countFilesList_nil]; rfl
  | n :: rest, pfx => by
    rw [gatherList_cons, countFilesList_cons, List.length_append,
      gatherLeaves_length n pfx, gatherList_length rest pfx]

end

/-- C7: `leaves()` lists, in depth-first pre-order, one `CatalogLeaf` per
file-bearing node (even when that node also has children), whose path is
the full root-to-node label chain; the number of leaves equals the number
of file-bearing nodes, and a manifest with zero file-bearing nodes yields
the empty list. -/
theorem manifest_leaves_spec (m : CatalogManifest) :
    m.leaves = (chainsList m.roots).filterMap
        (fun p => p.2.map (fun f => (⟨p.1, f⟩ : CatalogLeaf))) ∧
    m.leaves.length = countFilesList m.roots ∧
    (countFilesList m.roots = 0 → m.leaves = []) := by
  have h1 := gatherList_eq_chains m.roots []
  simp only [List.nil_append] at h1
  have h2 := gatherList_length m.roots []
  refine ⟨h1, h2, ?_⟩
  intro hzero
  have hz : (CatalogManifest.leaves m).length = 0 := by
    rw [CatalogManifest.leaves, h2, hzero]
  exact List.length_eq_zero.mp hz

/-- C7 witness: a two-node chain where both nodes carry files, and a
file-free manifest. -/
theorem manifest_leaves_spec_witness :
    (CatalogManifest.leaves
        ⟨[.mk "Organic" "organic" (some "o.json")
            [.mk "Alcohols" "alcohols" (some "a.json") []]]⟩).length
      = countFilesList
          [.mk "Organic" "organic" (some "o.json")
            [.mk "Alcohols" "alcohols" (some "a.json") []]] ∧
    CatalogManifest.leaves ⟨[.mk "Empty" "empty" none []]⟩ = [] :=
  ⟨(manifest_leaves_spec
      ⟨[.mk "Organic" "organic" (some "o.json")
          [.mk "Alcohols" "alcohols" (some "a.json") []]]⟩).2.1,
   (manifest_leaves_spec ⟨[.mk "Empty" "empty" none []]⟩).2.2
     (by simp [countFilesList_cons, countFilesNode_mk, countFilesList_nil])⟩

/-! ### Directory aggregation and the index.json sentinel -/

/-- Unfolding equation for `collectNode` on a directory. -/
theorem collectNode_dir (categories : List String) (name : String)
    (children : List FsNode) :
    collectNode categories (.dir name children)
      = collectChildren (categories ++ [name]) children := rfl

/-- Unfolding equation for `collectNode` on a file. -/
theorem collectNode_file (categories : List String) (name : String)
    (content : Option (List Compound)) :
    collectNode categories (.file name content)
      = if extensionIsJson name then appendFromFile name content categories
        else .ok [] := rfl

/-- Unfolding equation for `collectChildren` on `[]`. -/
theorem collectChildren_nil (categories : List String) :
    collectChildren categories [] = .ok [] := rfl

/-- Unfolding equation for `collectChildren` on `::`. -/
theorem collectChildren_cons (categories : List String) (n : FsNode)
    (rest : List FsNode) :
    collectChildren categories (n :: rest)
      = (do
          let a ← collectNode categories n
          let b ← collectChildren categories rest
          .ok (a ++ b)) := rfl

/-- C5 counterexample: an `index.json` file one directory below the root is
*not* skipped — its parsed compounds are appended as catalog entries under
that directory's category path, contradicting the claim that an index file
at any level is recognized and skipped. -/
theorem index_json_below_root_counterexample :
    fromDirectory [.dir "A" [.file "index.json" (some [cA])]]
      = .ok ⟨[⟨cA, ["A"]⟩]⟩ ∧
    fromDirectory [.dir "A" [.file "index.json" (some [cA])]]
      ≠ .ok ⟨[]⟩ := by
  have hrun : fromDirectory [.dir "A" [.file "index.json" (some [cA])]]
      = .ok ⟨[⟨cA, ["A"]⟩]⟩ := by
    rw [fromDirectory, collectChildren_cons, collectNode_dir,
      collectChildren_cons, collectNode_file]
    rfl
  refine ⟨hrun, ?_⟩
  rw [hrun]
  intro hcon
  simp at hcon

/-- C5 amended: the `index.json` sentinel is recognized only directly at
the root (empty category path), where it is skipped; any other JSON data
file at the root fails with `EmptyCategoryPath`; at any non-root level an
`index.json` file is parsed as ordinary compound data and its compounds
are appended at the current category path. -/
theorem index_json_skip_only_at_root
    (name : String) (content : Option (List Compound)) (cats : List String)
    (compounds : List Compound) :
    (collectNode [] (.file "index.json" content) = .ok []) ∧
    (extensionIsJson name → name ≠ "index.json" →
      collectNode [] (.file name content) = .error .emptyCategoryPath) ∧
    (cats ≠ [] →
      collectNode cats (.file "index.json" (some compounds))
        = .ok (compounds.map (fun c => ⟨c, cats⟩))) := by
  refine ⟨?_, ?_, ?_⟩
  · rw [collectNode_file]
    have hj : extensionIsJson "index.json" = true := by decide
    rw [if_pos hj]
    simp [appendFromFile]
  · intro hjson hne
    rw [collectNode_file, if_pos hjson]
    simp [appendFromFile, hne]
  · intro hne
    have hempty : cats.isEmpty = false := by
      cases cats with
      | nil => simp at hne
      | cons a t => rfl
    rw [collectNode_file]
    have hj : extensionIsJson "index.json" = true := by decide
    rw [if_pos hj]
    simp [appendFromFile, hempty]

/-- C5 witness: the three amended behaviors at concrete inputs. -/
theorem index_json_skip_only_at_root_witness :
    collectNode [] (.file "index.json" none) = .ok [] ∧
    collectNode [] (.file "data.json" none) = .error .emptyCategoryPath ∧
    collectNode ["A"] (.file "index.json" (some [cA])) = .ok [⟨cA, ["A"]⟩] :=
  ⟨(index_json_skip_only_at_root "data.json" none ["A"] [cA]).1,
   (index_json_skip_only_at_root "data.json" none ["A"] [cA]).2.1
     (by decide) (by decide),
   (index_json_skip_only_at_root "data.json" none ["A"] [cA]).2.2
     (by decide)⟩
